import Mathlib

/-!
Verification development for the tizen.js package-signing pipeline
(`src/packageSigner.js` and `src/xml-c14n.js`).

Strings are modelled as `List Char` (JavaScript strings, sequences of
code units; all data of interest is in the BMP where code units and code
points coincide).  Byte buffers are modelled as `List Nat` with each
entry a byte value.  External libraries (`crypto`, `@xmldom/xmldom`,
`node-forge`) are modelled as parameters: the SHA-512 primitive, the
XML parser and the RSA signing primitive are inputs of the model, while
the code of the repository itself is translated definition by
definition.
-/

namespace TizenSig

/-- Coerce a Lean string literal to the `List Char` representation used
throughout the model. -/
def lstr (s : String) : List Char := s.data

/-- The JavaScript replacement `.replace(/(.{76})/g, '$1\n')` on a
newline-free string: a `'\n'` is inserted after every complete group of
76 characters (including a trailing one when the length is an exact
positive multiple of 76).  The counter is the number of characters left
in the current group after the current one. -/
def wrap76Go : List Char → Nat → List Char
  | [], _ => []
  | c :: rest, 0 => c :: '\n' :: wrap76Go rest 75
  | c :: rest, Nat.succ k => c :: wrap76Go rest k

/-- `s.replace(/(.{76})/g, '$1\n')` for a `'\n'`-free `s` (every call
site in the source wraps base64 or stripped-PEM text, which contains no
newline). -/
def wrap76 (s : List Char) : List Char := wrap76Go s 75

/-- Remove every newline character (used to state digest claims about
line-wrapped base64 bodies). -/
def removeNewlines (s : List Char) : List Char := s.filter (fun c => !(c == '\n'))

/-- The base64 alphabet, in value order. -/
def b64Alphabet : List Char :=
  lstr "ABCDEFGHIJKLMNOPQRSTUVWXYZabcdefghijklmnopqrstuvwxyz0123456789+/"

/-- The base64 digit for a 6-bit value. -/
def b64Char (n : Nat) : Char := b64Alphabet.getD n 'A'

/-- Standard base64 encoding of a byte sequence (the encoding produced
by Node's `hash.digest('base64')` and used when modelling it). -/
def base64 : List Nat → List Char
  | [] => []
  | [a] => [b64Char (a / 4 % 64), b64Char (a % 4 * 16), '=', '=']
  | [a, b] => [b64Char (a / 4 % 64), b64Char (a % 4 * 16 + b / 16), b64Char (b % 16 * 4), '=']
  | a :: b :: c :: rest =>
      b64Char (a / 4 % 64) :: b64Char (a % 4 * 16 + b / 16) ::
      b64Char (b % 16 * 4 + c / 64) :: b64Char (c % 64) :: base64 rest

/-- Number of (possibly overlapping) occurrences of the pattern `p` as a
contiguous substring of `s`, counted by starting position. -/
def countSub (p : List Char) : List Char → Nat
  | [] => 0
  | c :: t => (if p <+: (c :: t) then 1 else 0) + countSub p t

/-- Lexicographic comparison of two character sequences by code point;
this is JavaScript's `<`/`===` comparison of strings (by code unit,
which agrees on BMP text). -/
def lexCmp : List Char → List Char → Ordering
  | [], [] => .eq
  | [], _ :: _ => .lt
  | _ :: _, [] => .gt
  | a :: as, b :: bs => if a < b then .lt else if b < a then .gt else lexCmp as bs

/-- Fuel-driven worker for `stripMarker`; the fuel starts at the length
of the list, which suffices because every step consumes at least one
character. -/
def stripMarkerGo (pat : List Char) : Nat → List Char → List Char
  | 0, l => l
  | Nat.succ f, [] => (fun _ => []) f
  | Nat.succ f, c :: t =>
      if pat.isPrefixOf (c :: t) then stripMarkerGo pat f ((c :: t).drop pat.length)
      else c :: stripMarkerGo pat f t

/-- The JavaScript global replacement of a fixed nonempty substring by
the empty string (`.replace(/marker/g, '')`): leftmost, non-overlapping
removal of every occurrence of `pat`. -/
def stripMarker (pat : List Char) (l : List Char) : List Char :=
  stripMarkerGo pat l.length l

/-- Whitespace characters collapsed by attribute-value normalization
(`/[\r\n\t ]+/g` in `encodeSpecialCharactersInAttribute`). -/
def isWsA (c : Char) : Bool := c == '\r' || c == '\n' || c == '\t' || c == ' '

/-- Worker for `collapseWs`: the flag records whether we are inside a
whitespace run whose single replacement space was already emitted. -/
def collapseWsGo : List Char → Bool → List Char
  | [], _ => []
  | c :: rest, inRun =>
      if isWsA c then
        (if inRun then collapseWsGo rest true else ' ' :: collapseWsGo rest true)
      else c :: collapseWsGo rest false

/-- `.replace(/[\r\n\t ]+/g, ' ')`: every maximal run of whitespace is
replaced by a single space. -/
def collapseWs (l : List Char) : List Char := collapseWsGo l false

/-- `.replace(/\r\n?/g, '\n')`: line-ending normalization in
`encodeSpecialCharactersInText` — every `"\r\n"` pair and every lone
`'\r'` becomes a single `'\n'`. -/
def normLineEndings : List Char → List Char
  | [] => []
  | [a] => if a = '\r' then ['\n'] else [a]
  | a :: b :: rest =>
      if a = '\r' then
        if b = '\n' then '\n' :: normLineEndings rest
        else '\n' :: normLineEndings (b :: rest)
      else a :: normLineEndings (b :: rest)

/-- Per-character attribute escaping (`xmlSpecialToEncodedAttribute`). -/
def escAttrChar (c : Char) : List Char :=
  if c = '&' then lstr "&amp;"
  else if c = '<' then lstr "&lt;"
  else if c = '"' then lstr "&quot;"
  else if c = '\r' then lstr "&#xD;"
  else if c = '\n' then lstr "&#xA;"
  else if c = '\t' then lstr "&#x9;"
  else [c]

/-- `encodeSpecialCharactersInAttribute`: whitespace collapsing followed
by special-character replacement (the replacements are per character, so
the two sequential regex replacements compose to a character map). -/
def encodeSpecialCharactersInAttribute (v : List Char) : List Char :=
  (collapseWs v).flatMap escAttrChar

/-- Per-character text escaping (`xmlSpecialToEncodedText`). -/
def escTextChar (c : Char) : List Char :=
  if c = '&' then lstr "&amp;"
  else if c = '<' then lstr "&lt;"
  else if c = '>' then lstr "&gt;"
  else if c = '\r' then lstr "&#xD;"
  else [c]

/-- `encodeSpecialCharactersInText`: line-ending normalization followed
by special-character replacement. -/
def encodeSpecialCharactersInText (t : List Char) : List Char :=
  (normLineEndings t).flatMap escTextChar

/-- UTF-8 encoding of a character sequence (`Buffer.from(string)`). -/
def utf8Bytes (l : List Char) : List Nat :=
  (l.map (fun c => (String.utf8EncodeChar c).map UInt8.toNat)).flatten

/-!
The exclusive canonicalizer of `src/xml-c14n.js`.

The DOM produced by `@xmldom/xmldom` is modelled by `XNode`/`Attr`.
A node's `prefix` and `namespaceURI` are `null` for unprefixed /
un-namespaced nodes; `Option` models that, `none` standing for `null`.
JavaScript truthiness on those fields (`null` and `''` are falsy) is
`optTruthy`; string coercion of `null` inside `+` is `jsStr`; rendering
of `null`/`undefined` through `Array.prototype.join('')` yields the
empty string, which is `renderOpt`.
-/

/-- A DOM attribute as seen by the canonicalizer: qualified `name`,
`pfx` (the DOM `prefix`), `localName`, `namespaceURI` and `value`. -/
structure Attr where
  name : List Char
  pfx : Option (List Char)
  localName : List Char
  namespaceURI : Option (List Char)
  value : List Char

/-- A DOM node: a text node (`node.data`) or an element with its
`tagName`, `pfx` (the DOM `prefix`), `namespaceURI`, `attributes` and
`childNodes`.  (An element's `data` is `undefined`, hence falsy, so the
`if (node.data)` guard in `processInner` sends exactly the text nodes
to the text branch; a text node with empty data would fall through and
crash on `undefined.tagName` in the source, a case outside the
well-formed trees considered here.) -/
inductive XNode where
  | text (data : List Char)
  | elem (tagName : List Char) (pfx : Option (List Char)) (namespaceURI : Option (List Char))
      (attributes : List Attr) (childNodes : List XNode)

/-- JavaScript truthiness of a nullable string: `null` and `''` are
falsy. -/
def optTruthy : Option (List Char) → Bool
  | none => false
  | some s => !s.isEmpty

/-- JavaScript string coercion inside `+`: `null` becomes `"null"`. -/
def jsStr : Option (List Char) → List Char
  | none => lstr "null"
  | some s => s

/-- Rendering of a nullable string through `[..].join('')`: `null` and
`undefined` become the empty string. -/
def renderOpt : Option (List Char) → List Char
  | none => []
  | some s => s

/-- JavaScript `a || b` on nullable strings: the first operand if
truthy, the second otherwise. -/
def jsOrOpt (a b : Option (List Char)) : Option (List Char) :=
  if optTruthy a then a else b

/-- JavaScript loose equality `defaultNs == currNs` where `defaultNs`
may be `null` and `currNs` is always a string: `null` is never loosely
equal to a string. -/
def jsEqNullable (d : Option (List Char)) (c : List Char) : Bool :=
  match d with
  | none => false
  | some s => s == c

/-- `ExclusiveCanonicalization.attrCompare`: attributes without a
(truthy) namespace URI sort first; otherwise the concatenations
`namespaceURI + localName` are compared as JavaScript strings (with
`null` coerced to the string `"null"`). -/
def attrCompare (a b : Attr) : Ordering :=
  if !optTruthy a.namespaceURI && optTruthy b.namespaceURI then .lt
  else if !optTruthy b.namespaceURI && optTruthy a.namespaceURI then .gt
  else lexCmp (jsStr a.namespaceURI ++ a.localName) (jsStr b.namespaceURI ++ b.localName)

/-- The sort order used on the attribute axis: `attrCompare a b ≤ 0`.
`Array.prototype.sort` is stable, and `attrCompare` is a consistent
comparator, so a stable insertion sort reproduces it exactly. -/
def attrLe (a b : Attr) : Prop := attrCompare a b ≠ Ordering.gt

instance : DecidableRel attrLe := fun a b => by unfold attrLe; infer_instance

/-- A pending namespace declaration collected by `renderNs`
(an entry of `nsListToRender`): the prefix and the rendered URI (with
`null`/`undefined` already coerced to the empty string as
`join('')` does). -/
structure NsDecl where
  pfx : List Char
  uri : List Char

/-- `ExclusiveCanonicalization.nsCompare`: namespace declarations are
sorted by prefix (`localeCompare`, modelled as code-point comparison,
with which it agrees on the ASCII prefixes that occur here). -/
def nsLe (a b : NsDecl) : Prop := lexCmp a.pfx b.pfx ≠ Ordering.gt

instance : DecidableRel nsLe := fun a b => by unfold nsLe; infer_instance

/-- Lookup in the `defaultNsForPrefix` option object. -/
def lookupDnfp (m : List (List Char × List Char)) (k : List Char) : Option (List Char) :=
  (m.find? (fun p => p.1 == k)).map (fun p => p.2)

/-- `ExclusiveCanonicalization.renderAttrs`: drop every attribute whose
qualified name starts with `xmlns` (`attr.name.indexOf("xmlns") === 0`),
sort the rest with `attrCompare` (stably), and render each as
` name="escaped value"`.  The `defaultNS` argument of the source is
taken and ignored, as there. -/
def renderAttrs (attrs : List Attr) (_defaultNS : Option (List Char)) : List Char :=
  let attrListToRender := attrs.filter (fun a => !((lstr "xmlns").isPrefixOf a.name))
  let sorted := List.insertionSort attrLe attrListToRender
  (sorted.map (fun a =>
    lstr " " ++ a.name ++ lstr "=\"" ++ encodeSpecialCharactersInAttribute a.value ++ lstr "\"")).flatten

/-- The result of `renderNs`: the rendered namespace axis, the new
default namespace (`null`able, as the source assigns
`node.namespaceURI` to it), and the final contents of the (mutated)
`prefixesInScope` array. -/
structure NsResult where
  rendered : List Char
  newDefaultNs : Option (List Char)
  scope : List (List Char)

/-- One iteration of the attribute loop of `renderNs`: collect an
inclusive-prefix-list declaration keyed by the attribute's local name,
then a declaration for a prefixed non-`xmlns`/non-`xml` attribute whose
prefix is not yet in scope; each collection also pushes onto the
scope. -/
def nsAttrStep (incl : List (List Char)) (acc : List NsDecl × List (List Char)) (attr : Attr) :
    List NsDecl × List (List Char) :=
  let acc1 :=
    if optTruthy attr.pfx && !acc.2.contains attr.localName && incl.contains attr.localName
    then (acc.1 ++ [⟨attr.localName, attr.value⟩], acc.2 ++ [attr.localName])
    else acc
  let p := attr.pfx.getD []
  if optTruthy attr.pfx && !acc1.2.contains p && !(p == lstr "xmlns") && !(p == lstr "xml")
  then (acc1.1 ++ [⟨p, renderOpt attr.namespaceURI⟩], acc1.2 ++ [p])
  else acc1

/-- The element's-own-namespace stage of `renderNs` (before the
attribute loop): the pending declaration list, the scope after a
possible push, the immediately rendered `xmlns="…"` text, and the new
default namespace. -/
def nsStage1 (pfx? nsURI? : Option (List Char)) (scope0 : List (List Char))
    (defaultNs : Option (List Char)) (dnfp : List (List Char × List Char)) :
    List NsDecl × List (List Char) × List Char × Option (List Char) :=
  let currNs := nsURI?.getD []
  if optTruthy pfx? then
    let p := pfx?.getD []
    if scope0.contains p then ([], scope0, [], defaultNs)
    else ([⟨p, renderOpt (jsOrOpt nsURI? (lookupDnfp dnfp p))⟩], scope0 ++ [p], [], defaultNs)
  else if !jsEqNullable defaultNs currNs then
    ([], scope0, lstr " xmlns=\"" ++ renderOpt nsURI? ++ lstr "\"", nsURI?)
  else ([], scope0, [], defaultNs)

/-- `ExclusiveCanonicalization.renderNs`.  The source mutates
`prefixesInScope` by `push`; the mutation is made explicit as the
returned `scope`.  `nsStage1` handles the element's own namespace
(either a pending `xmlns:pfx` declaration or an immediately rendered
`xmlns="…"` default-namespace change); `nsAttrStep` is folded over the
attributes in document order, collecting inclusive-prefix-list
declarations and declarations for prefixed attributes; the pending list
is then sorted by prefix and rendered after the default-namespace
part. -/
def renderNs (pfx? nsURI? : Option (List Char)) (attrs : List Attr)
    (scope0 : List (List Char)) (defaultNs : Option (List Char))
    (dnfp : List (List Char × List Char)) (incl : List (List Char)) : NsResult :=
  let s1 := nsStage1 pfx? nsURI? scope0 defaultNs dnfp
  let stage2 := attrs.foldl (nsAttrStep incl) (s1.1, s1.2.1)
  let sorted := List.insertionSort nsLe stage2.1
  ⟨s1.2.2.1 ++
      (sorted.map (fun d => lstr " xmlns:" ++ d.pfx ++ lstr "=\"" ++ d.uri ++ lstr "\"")).flatten,
    s1.2.2.2, stage2.2⟩

mutual

/-- `ExclusiveCanonicalization.processInner`.  Text nodes are escaped;
an element renders its namespace axis and attribute axis, then recurses
into each child with a copy (`prefixesInScope.slice(0)`) of the prefix
set as mutated by this element's own `renderNs` — the same copied set
for every child, so child subtrees cannot leak prefix declarations into
siblings or back to the parent.  The second component is the final
contents of the `prefixesInScope` array passed in (mutated only by this
element's own `renderNs`). -/
def processInner (node : XNode) (scope : List (List Char)) (defaultNs : Option (List Char))
    (dnfp : List (List Char × List Char)) (incl : List (List Char)) :
    List Char × List (List Char) :=
  match node with
  | .text d => (encodeSpecialCharactersInText d, scope)
  | .elem tagName pfx? nsURI? attrs childNodes =>
      let ns := renderNs pfx? nsURI? attrs scope defaultNs dnfp incl
      (lstr "<" ++ tagName ++ ns.rendered ++ renderAttrs attrs ns.newDefaultNs ++ lstr ">" ++
        processChildren childNodes ns.scope ns.newDefaultNs dnfp incl ++
        lstr "</" ++ tagName ++ lstr ">", ns.scope)

/-- The child loop of `processInner`: every child is processed with the
same (copied) prefix set `scope`; the state returned by a child is the
state of its private copy and is discarded. -/
def processChildren (childNodes : List XNode) (scope : List (List Char))
    (defaultNs : Option (List Char)) (dnfp : List (List Char × List Char))
    (incl : List (List Char)) : List Char :=
  match childNodes with
  | [] => []
  | c :: cs =>
      (processInner c scope defaultNs dnfp incl).1 ++ processChildren cs scope defaultNs dnfp incl

end

/-- `ExclusiveCanonicalization.process`: entry point, starting from an
empty prefix scope and the caller-supplied options (an absent
`defaultNs` option defaults to the empty string, so the initial default
namespace is always a string, modelled as `some defaultNs`). -/
def process (node : XNode) (dnfp : List (List Char × List Char))
    (incl : List (List Char)) (defaultNs : List Char) : List Char :=
  (processInner node [] (some defaultNs) dnfp incl).1

/-!
The signature builder of `src/packageSigner.js`.

External collaborators are parameters gathered in `Ext`: the SHA-512
digest (`crypto.createHash('sha512')`), the XML parser plus
`documentElement.firstChild` access (`@xmldom/xmldom`), and RSA-SHA512
signing (`crypto.createSign('RSA-SHA512')`), which can fail (throw);
failures are modelled with `Except`.  PKCS#12 safe bags carry their
forge-rendered PEM text directly (`forge.pki.certificateToPem` /
`forge.pki.privateKeyToPem` are external encoders).
-/

/-- Error kinds a `sign` call can surface (§7 of the specification):
a throw from the XML parsing of the throwaway wrapper, or a throw from
the RSA primitive. -/
inductive SigError where
  | malformedXml
  | cryptoFailure

/-- External primitives used by the signer. -/
structure Ext where
  sha512 : List Nat → List Nat
  parseFirstChild : List Char → Except SigError XNode
  rsaSign : List Char → List Char → Except SigError (List Char)

/-- A file entry `{uri, data}` of the list being signed. -/
structure FileEntry where
  uri : List Char
  data : List Nat

/-- The hard-coded `#prop` digest for an author signature. -/
def authorPropDigest : List Char :=
  lstr "aXbSAVgmAz0GsBUeZ1UmNDRrxkWhDUVGb45dZcNRq429wX3X+x6kaXT3NdNDTSNVTU+ypkysPMGvQY10fG1EWQ=="

/-- The hard-coded `#prop` digest for a distributor signature. -/
def distributorPropDigest : List Char :=
  lstr "/r5npk2VVA46QFJnejgONBEh4BWtjrtu9x/IFeLksjWyGmB/cMWKSJWQl7aU3YRQRZ3AesG8gF7qGyvKX9Snig=="

/-- The dynamically-typed `data` argument of `createReference`: a file
buffer for ordinary references, the precomputed digest string for the
`#prop` reference. -/
inductive RefData where
  | buf (bytes : List Nat)
  | str (s : List Char)

/-- The bytes hashed by `hash.update(data)`: a buffer hashes as is, a
string is hashed as its UTF-8 encoding. -/
def refBytes : RefData → List Nat
  | .buf b => b
  | .str s => utf8Bytes s

/-- The string branch `hashBase64 = data`.  A buffer reaching this
branch would crash the source (`Buffer` has no `.replace`); it is
modelled as the empty string and never reached: the source only passes
a string for the `#prop` reference. -/
def refStr : RefData → List Char
  | .str s => s
  | .buf _ => []

/-- The `hashBase64` local of `createReference`: the base64 SHA-512
digest for an ordinary reference, the passed-through digest string for
`#prop`. -/
def refDigestB64 (sha512 : List Nat → List Nat) (data : RefData) (uri : List Char) : List Char :=
  if uri ≠ lstr "#prop" then base64 (sha512 (refBytes data)) else refStr data

/-- `createReference(data, uri)`: one rendered `<Reference>` fragment;
the `#prop` reference additionally carries the C14N 1.1 `<Transforms>`
block, and the digest body is line-wrapped at 76 columns. -/
def createReference (sha512 : List Nat → List Nat) (data : RefData) (uri : List Char) :
    List Char :=
  let transform := lstr "<Transforms>\n<Transform Algorithm=\"http://www.w3.org/2006/12/xml-c14n11\"></Transform>\n</Transforms>\n"
  lstr "<Reference URI=\"" ++ uri ++ lstr "\">\n" ++
    (if uri = lstr "#prop" then transform else []) ++
    lstr "<DigestMethod Algorithm=\"http://www.w3.org/2001/04/xmlenc#sha512\"></DigestMethod>\n<DigestValue>" ++
    wrap76 (refDigestB64 sha512 data uri) ++
    lstr "</DigestValue>\n</Reference>\n"

/-- The mutable state of a `Signature` instance. -/
structure SigState where
  id : List Char
  files : List FileEntry
  references : List Char
  keyInfo : List Char
  signedInfo : List Char
  privateKey : List Char

/-- The `Signature` constructor: stores `id` and the caller's file
list, and initializes every buffer to the empty string. -/
def mkSignature (id : List Char) (files : List FileEntry) : SigState :=
  ⟨id, files, [], [], [], []⟩

/-- The digest string passed for the `#prop` reference:
`this.id === 'AuthorSignature' ? authorPropDigest : distributorPropDigest`. -/
def propData (id : List Char) : List Char :=
  if id = lstr "AuthorSignature" then authorPropDigest else distributorPropDigest

/-- `Signature._createReferences` as a function of `id` and `files`:
the per-file fragments are appended in file order, then the `#prop`
fragment (the method itself appends this to `this.references`). -/
def mkReferences (sha512 : List Nat → List Nat) (id : List Char) (files : List FileEntry) :
    List Char :=
  (files.foldl (fun acc f => acc ++ createReference sha512 (.buf f.data) f.uri) []) ++
    createReference sha512 (.str (propData id)) (lstr "#prop")

/-- A PKCS#12 safe bag: a certificate bag carrying the PEM text of its
certificate, a shrouded private-key bag carrying the PEM of its key, or
any other bag kind. -/
inductive SafeBag where
  | certBag (pem : List Char)
  | keyBag (pem : List Char)
  | otherBag

/-- A parsed PKCS#12 bundle (`forge.pkcs12.Pkcs12Pfx`): its
`safeContents`, each holding `safeBags`. -/
structure Pkcs12 where
  safeContents : List (List SafeBag)

/-- Does the bundle contain a shrouded private-key bag? -/
def hasKeyBag (key : Pkcs12) : Bool :=
  key.safeContents.flatten.any (fun b => match b with | .keyBag _ => true | _ => false)

/-- Does the bundle contain a certificate bag? -/
def hasCertBag (key : Pkcs12) : Bool :=
  key.safeContents.flatten.any (fun b => match b with | .certBag _ => true | _ => false)

/-- The per-certificate body in `_addKeyInfo`: strip the PEM
boundaries, remove every CR/LF, and rewrap at 76 columns. -/
def certBody (pem : List Char) : List Char :=
  wrap76 (((stripMarker (lstr "-----BEGIN CERTIFICATE-----")
      (stripMarker (lstr "-----END CERTIFICATE-----") pem))).filter
    (fun c => !(c == '\r') && !(c == '\n')))

/-- One iteration of the bag loop of `_addKeyInfo`, over the pair
(keyInfo so far, privateKey so far): a certificate bag appends an
`<X509Certificate>` block, a shrouded key bag overwrites the private
key, any other bag is ignored. -/
def keyInfoStep (acc : List Char × List Char) (bag : SafeBag) : List Char × List Char :=
  match bag with
  | .certBag pem =>
      let k := certBody pem
      (acc.1 ++ lstr "\n<X509Certificate>" ++
        (if (lstr "\n").isPrefixOf k then [] else lstr "\n") ++ k ++
        lstr "\n</X509Certificate>", acc.2)
  | .keyBag pem => (acc.1, pem)
  | .otherBag => acc

/-- `Signature._addKeyInfo`: iterate the safe bags in order from the
initial `'<KeyInfo>\n<X509Data>'`, then close the `X509Data` and
`KeyInfo` elements. -/
def addKeyInfo (s : SigState) (key : Pkcs12) : SigState :=
  let acc := key.safeContents.flatten.foldl keyInfoStep (lstr "<KeyInfo>\n<X509Data>", s.privateKey)
  { s with keyInfo := acc.1 ++ lstr "\n</X509Data>\n</KeyInfo>\n", privateKey := acc.2 }

/-- The `<SignedInfo>` text assembled at the start of
`_generateSignature`. -/
def signedInfoCore (references : List Char) : List Char :=
  lstr "<SignedInfo>\n<CanonicalizationMethod Algorithm=\"http://www.w3.org/2001/10/xml-exc-c14n#\"></CanonicalizationMethod>\n<SignatureMethod Algorithm=\"http://www.w3.org/2001/04/xmldsig-more#rsa-sha512\"></SignatureMethod>\n" ++
    references ++ lstr "</SignedInfo>\n"

/-- The `defaultNsForPrefix` map passed to the canonicalizer (with the
source's `w3c` typo preserved). -/
def dsDnfp : List (List Char × List Char) :=
  [(lstr "ds", lstr "http://www.w3c.org/2000/09/xmldsig#")]

/-- `Signature._generateSignature`: append the `<SignedInfo>` text,
parse the throwaway `<Signature>` wrapper, canonicalize its first
child, RSA-SHA512-sign the canonical octets with `this.privateKey`,
and append the wrapped `<SignatureValue>`.  The second component is the
instance state as mutated so far (also on failure). -/
def generateSignature (ext : Ext) (s : SigState) : Except SigError Unit × SigState :=
  let s1 := { s with signedInfo := s.signedInfo ++ signedInfoCore s.references }
  let wrapper := lstr "<Signature xmlns=\"http://www.w3.org/2000/09/xmldsig#\">" ++
    s1.signedInfo ++ lstr "</Signature>"
  match ext.parseFirstChild wrapper with
  | .error e => (.error e, s1)
  | .ok node =>
      let c14n := (processInner node [] (some []) dsDnfp []).1
      match ext.rsaSign s1.privateKey c14n with
      | .error e => (.error e, s1)
      | .ok signedKey =>
          (.ok (), { s1 with signedInfo := (s1.signedInfo ++ lstr "<SignatureValue>\n" ++
            wrap76 signedKey ++ lstr "\n</SignatureValue>\n") })

/-- The ternary choosing the role word in the `<Object>` block:
`this.id == 'AuthorSignature' ? 'author' : 'distributor'`. -/
def roleWord (id : List Char) : List Char :=
  if id = lstr "AuthorSignature" then lstr "author" else lstr "distributor"

/-- `Signature._generateSignatureXML`: the final signature document. -/
def generateSignatureXML (s : SigState) : List Char :=
  lstr "<Signature xmlns=\"http://www.w3.org/2000/09/xmldsig#\" Id=\"" ++ s.id ++ lstr "\">\n" ++
    s.signedInfo ++ s.keyInfo ++
    lstr "<Object Id=\"prop\"><SignatureProperties xmlns:dsp=\"http://www.w3.org/2009/xmldsig-properties\"><SignatureProperty Id=\"profile\" Target=\"#" ++
    s.id ++
    lstr "\"><dsp:Profile URI=\"http://www.w3.org/ns/widgets-digsig#profile\"></dsp:Profile></SignatureProperty><SignatureProperty Id=\"role\" Target=\"#" ++
    s.id ++ lstr "\"><dsp:Role URI=\"" ++
    lstr "http://www.w3.org/ns/widgets-digsig#role-" ++ roleWord s.id ++
    lstr "\"></dsp:Role></SignatureProperty><SignatureProperty Id=\"identifier\" Target=\"#" ++
    s.id ++
    lstr "\"><dsp:Identifier></dsp:Identifier></SignatureProperty></SignatureProperties></Object>\n</Signature>\n"

/-- The signature-file name chosen by `sign` when prepending:
`this.id === 'AuthorSignature' ? 'author-signature.xml' : 'signature1.xml'`. -/
def sigFileName (id : List Char) : List Char :=
  if id = lstr "AuthorSignature" then lstr "author-signature.xml" else lstr "signature1.xml"

/-- `Signature.sign(key)`: build the references, extract the key
material, generate and insert the signature value, then — only on
success — prepend the signature file to `this.files` and return it.
The second component is the instance state at the end of the call
(also at the point of failure). -/
def signRun (ext : Ext) (s : SigState) (key : Pkcs12) :
    Except SigError (List FileEntry) × SigState :=
  let s1 := { s with references := s.references ++ mkReferences ext.sha512 s.id s.files }
  let s2 := addKeyInfo s1 key
  match generateSignature ext s2 with
  | (.error e, s3) => (.error e, s3)
  | (.ok _, s3) =>
      let entry : FileEntry := ⟨sigFileName s3.id, utf8Bytes (generateSignatureXML s3)⟩
      let s4 := { s3 with files := entry :: s3.files }
      (.ok s4.files, s4)

/-! Auxiliary definitions used to state the claims. -/

/-- The `<Reference ` pattern whose occurrences are counted when the
reference count of `<SignedInfo>` is stated. -/
def refPat : List Char := lstr "<Reference "

/-- The concrete element `<e xmlns="u" b="2" a="1" xml:lang="en"/>` as
parsed by `@xmldom/xmldom`: the `xmlns` attribute has no prefix and the
XMLNS namespace; `b` and `a` have neither prefix nor namespace;
`xml:lang` has prefix `xml` and the XML namespace. -/
def exampleElem : XNode :=
  .elem (lstr "e") none (some (lstr "u"))
    [⟨lstr "xmlns", none, lstr "xmlns", some (lstr "http://www.w3.org/2000/xmlns/"), lstr "u"⟩,
     ⟨lstr "b", none, lstr "b", none, lstr "2"⟩,
     ⟨lstr "a", none, lstr "a", none, lstr "1"⟩,
     ⟨lstr "xml:lang", some (lstr "xml"), lstr "lang",
       some (lstr "http://www.w3.org/XML/1998/namespace"), lstr "en"⟩]
    []

/-- An instantiation of the external primitives on which every step
succeeds: a fixed digest, a parser returning a text node, and an RSA
primitive that (like Node's) throws on an empty key and otherwise
returns a fixed base64 signature. -/
def extOK : Ext :=
  ⟨fun _ => List.replicate 64 0,
   fun _ => .ok (XNode.text (lstr "SI")),
   fun pk _ => if pk.isEmpty then .error .cryptoFailure else .ok (lstr "U0lHTkFUVVJF")⟩

/-- An instantiation of the external primitives whose XML parser
throws. -/
def extParseFail : Ext :=
  ⟨fun _ => List.replicate 64 0,
   fun _ => .error .malformedXml,
   fun pk _ => if pk.isEmpty then .error .cryptoFailure else .ok (lstr "U0lHTkFUVVJF")⟩

/-- A bundle with one certificate bag and one shrouded key bag. -/
def keyOK : Pkcs12 := ⟨[[SafeBag.certBag (lstr "CERTDATA"), SafeBag.keyBag (lstr "PRIVKEY")]]⟩

/-- A bundle with a shrouded key bag but no certificate bag. -/
def keyNoCert : Pkcs12 := ⟨[[SafeBag.keyBag (lstr "PRIVKEY")]]⟩

/-- A bundle with no bags at all. -/
def keyEmpty : Pkcs12 := ⟨[]⟩

/-- Is the character 7-bit ASCII? -/
def asciiB (c : Char) : Bool := c.toNat < 128

/-- Is every character of the string 7-bit ASCII? -/
def asciiStrB (l : List Char) : Bool := l.all asciiB

/-- ASCII-ness of a nullable string. -/
def asciiOptB : Option (List Char) → Bool
  | none => true
  | some s => asciiStrB s

/-- ASCII-ness of every field of an attribute. -/
def asciiAttrB (a : Attr) : Bool :=
  asciiStrB a.name && asciiOptB a.pfx && asciiStrB a.localName &&
    asciiOptB a.namespaceURI && asciiStrB a.value

mutual

/-- ASCII-ness of every name, value and URI in a DOM tree. -/
def asciiNodeB : XNode → Bool
  | .text d => asciiStrB d
  | .elem tagName pfx? nsURI? attrs childNodes =>
      asciiStrB tagName && asciiOptB pfx? && asciiOptB nsURI? &&
        attrs.all asciiAttrB && asciiNodesB childNodes

/-- ASCII-ness of a forest. -/
def asciiNodesB : List XNode → Bool
  | [] => true
  | c :: cs => asciiNodeB c && asciiNodesB cs

end

/-- ASCII-ness of the `defaultNsForPrefix` map. -/
def asciiPairsB (m : List (List Char × List Char)) : Bool :=
  m.all (fun p => asciiStrB p.1 && asciiStrB p.2)

/-! Helper lemmas about the string utilities. -/

theorem mem_wrap76Go (c : Char) :
    ∀ (s : List Char) (k : Nat), c ∈ wrap76Go s k → c ∈ s ∨ c = '\n' := by
  intro s
  induction s with
  | nil => intro k h; simp [wrap76Go] at h
  | cons a t ih =>
    intro k h
    cases k with
    | zero =>
      simp only [wrap76Go, List.mem_cons] at h
      rcases h with h | h | h
      · exact Or.inl (by simp [h])
      · exact Or.inr h
      · rcases ih 75 h with h' | h'
        · exact Or.inl (List.mem_cons_of_mem _ h')
        · exact Or.inr h'
    | succ k =>
      simp only [wrap76Go, List.mem_cons] at h
      rcases h with h | h
      · exact Or.inl (by simp [h])
      · rcases ih k h with h' | h'
        · exact Or.inl (List.mem_cons_of_mem _ h')
        · exact Or.inr h'

theorem mem_wrap76 (c : Char) (s : List Char) (h : c ∈ wrap76 s) : c ∈ s ∨ c = '\n' :=
  mem_wrap76Go c s 75 h

theorem removeNewlines_wrap76Go (s : List Char) (hs : '\n' ∉ s) :
    ∀ k, removeNewlines (wrap76Go s k) = s := by
  induction s with
  | nil => intro k; rfl
  | cons a t ih =>
    have ha : ¬ (a == '\n') := by
      intro h
      exact hs (by simp [show a = '\n' from by simpa using h])
    have ht : '\n' ∉ t := fun h => hs (List.mem_cons_of_mem _ h)
    intro k
    cases k with
    | zero =>
      simp only [wrap76Go, removeNewlines, List.filter]
      simp only [ha, Bool.not_false, Bool.not_true, beq_self_eq_true]
      simpa [removeNewlines] using ih ht 75
    | succ k =>
      simp only [wrap76Go, removeNewlines, List.filter, ha, Bool.not_false]
      simpa [removeNewlines] using ih ht k

theorem removeNewlines_wrap76 (s : List Char) (hs : '\n' ∉ s) :
    removeNewlines (wrap76 s) = s :=
  removeNewlines_wrap76Go s hs 75

theorem b64Char_mem (n : Nat) : b64Char n ∈ b64Alphabet := by
  unfold b64Char
  by_cases h : n < b64Alphabet.length
  · rw [List.getD_eq_getElem b64Alphabet 'A' h]
    exact List.getElem_mem h
  · rw [List.getD_eq_default b64Alphabet 'A' (Nat.le_of_not_lt h)]
    decide

theorem base64_mem : ∀ (bs : List Nat) (c : Char), c ∈ base64 bs → c ∈ b64Alphabet ∨ c = '='
  | [], c, h => by simp [base64] at h
  | [a], c, h => by
      simp only [base64, List.mem_cons, List.not_mem_nil, or_false] at h
      rcases h with h | h | h | h
      · exact Or.inl (h ▸ b64Char_mem _)
      · exact Or.inl (h ▸ b64Char_mem _)
      · exact Or.inr h
      · exact Or.inr h
  | [a, b], c, h => by
      simp only [base64, List.mem_cons, List.not_mem_nil, or_false] at h
      rcases h with h | h | h | h
      · exact Or.inl (h ▸ b64Char_mem _)
      · exact Or.inl (h ▸ b64Char_mem _)
      · exact Or.inl (h ▸ b64Char_mem _)
      · exact Or.inr h
  | a :: b :: d :: rest, c, h => by
      simp only [base64, List.mem_cons] at h
      rcases h with h | h | h | h | h
      · exact Or.inl (h ▸ b64Char_mem _)
      · exact Or.inl (h ▸ b64Char_mem _)
      · exact Or.inl (h ▸ b64Char_mem _)
      · exact Or.inl (h ▸ b64Char_mem _)
      · exact base64_mem rest c h

theorem base64_no_nl (bs : List Nat) : '\n' ∉ base64 bs := by
  intro h
  rcases base64_mem bs '\n' h with h' | h' <;> revert h' <;> decide

theorem base64_no_lt (bs : List Nat) : '<' ∉ base64 bs := by
  intro h
  rcases base64_mem bs '<' h with h' | h' <;> revert h' <;> decide

/-- C1: for every file entry with `uri` distinct from `#prop`, the
Reference Builder emits exactly one fragment
`<Reference URI="{uri}">` containing the SHA-512 `<DigestMethod>` and a
`<DigestValue>` that is `Base64(SHA-512(data))` wrapped with a newline
after every 76 characters; removing the line wraps recovers
`Base64(SHA-512(data))` exactly. -/
theorem C1_reference_digest (sha512 : List Nat → List Nat) (data : List Nat) (uri : List Char)
    (h : uri ≠ lstr "#prop") :
    createReference sha512 (.buf data) uri =
      lstr "<Reference URI=\"" ++ uri ++ lstr "\">\n" ++
      lstr "<DigestMethod Algorithm=\"http://www.w3.org/2001/04/xmlenc#sha512\"></DigestMethod>\n<DigestValue>" ++
      wrap76 (base64 (sha512 data)) ++ lstr "</DigestValue>\n</Reference>\n"
    ∧ removeNewlines (wrap76 (base64 (sha512 data))) = base64 (sha512 data) := by
  constructor
  · simp [createReference, refDigestB64, refBytes, h]
  · exact removeNewlines_wrap76 _ (base64_no_nl _)

theorem C1_reference_digest_witness :
    lstr "config.xml" ≠ lstr "#prop" ∧
    (createReference (fun _ => List.replicate 64 0) (.buf [60, 120, 47, 62]) (lstr "config.xml") =
      lstr "<Reference URI=\"" ++ lstr "config.xml" ++ lstr "\">\n" ++
      lstr "<DigestMethod Algorithm=\"http://www.w3.org/2001/04/xmlenc#sha512\"></DigestMethod>\n<DigestValue>" ++
      wrap76 (base64 ((fun _ => List.replicate 64 0) [60, 120, 47, 62])) ++
      lstr "</DigestValue>\n</Reference>\n"
    ∧ removeNewlines (wrap76 (base64 ((fun _ => List.replicate 64 0) [60, 120, 47, 62]))) =
        base64 ((fun _ => List.replicate 64 0) [60, 120, 47, 62])) :=
  ⟨by decide, C1_reference_digest (fun _ => List.replicate 64 0) [60, 120, 47, 62]
    (lstr "config.xml") (by decide)⟩

/-! Counting occurrences of a pattern across concatenations. -/

theorem prefix_append_iff_left (p : List Char) :
    ∀ (t b : List Char), p.length ≤ t.length → (p <+: t ++ b ↔ p <+: t) := by
  induction p with
  | nil => intro t b _; simp
  | cons a p ih =>
    intro t b h
    cases t with
    | nil => simp at h
    | cons x t =>
      simp only [List.cons_append, List.cons_prefix_cons]
      have := ih t b (by simpa using h)
      tauto

theorem countSub_append_safe (p : List Char) (hp : p ≠ []) :
    ∀ (a b : List Char), (∀ t, t <:+ a → t.length < p.length → p.head? ≠ t.head?) →
    countSub p (a ++ b) = countSub p a + countSub p b := by
  intro a
  induction a with
  | nil => intro b _; simp [countSub]
  | cons x xs ih =>
    intro b h
    have hxs : ∀ t, t <:+ xs → t.length < p.length → p.head? ≠ t.head? := by
      intro t ht
      exact h t (ht.trans (List.suffix_cons x xs))
    have key : (p <+: x :: (xs ++ b)) ↔ (p <+: x :: xs) := by
      by_cases hlen : p.length ≤ (x :: xs).length
      · exact prefix_append_iff_left p (x :: xs) b hlen
      · push_neg at hlen
        have hhead := h (x :: xs) (List.suffix_refl _) hlen
        constructor
        · intro hpp
          exfalso
          cases p with
          | nil => exact hp rfl
          | cons ph pt =>
            have hx : ph = x := (List.cons_prefix_cons.mp hpp).1
            exact hhead (by simp [hx])
        · intro hpp
          exact absurd hpp.length_le (by omega)
    show (if p <+: x :: (xs ++ b) then 1 else 0) + countSub p (xs ++ b) =
      ((if p <+: x :: xs then 1 else 0) + countSub p xs) + countSub p b
    rw [ih b hxs]
    simp only [key]
    omega

theorem countSub_append_of_head (p : List Char) (ch : Char) (hch : p.head? = some ch) :
    ∀ (a b : List Char), ch ∉ a → countSub p (a ++ b) = countSub p b := by
  intro a
  induction a with
  | nil => intro b _; rfl
  | cons x xs ih =>
    intro b hn
    have hpf : ¬ p <+: x :: (xs ++ b) := by
      intro hpp
      cases p with
      | nil => simp at hch
      | cons ph pt =>
        have hx : ph = x := (List.cons_prefix_cons.mp hpp).1
        have : ph = ch := by simpa using hch
        exact hn (by simp [← hx, this])
    show (if p <+: x :: (xs ++ b) then 1 else 0) + countSub p (xs ++ b) = countSub p b
    rw [if_neg hpf, ih b (fun hm => hn (List.mem_cons_of_mem _ hm))]
    omega

theorem suffix_shrink (t : List Char) :
    ∀ (x C : List Char), t <:+ x ++ C → t.length ≤ C.length → t <:+ C := by
  intro x
  induction x with
  | nil => intro C ht _; simpa using ht
  | cons a x ih =>
    intro C ht hl
    rcases List.suffix_cons_iff.mp (by simpa using ht) with h1 | h1
    · exfalso
      rw [h1] at hl
      simp only [List.length_cons, List.length_append] at hl
      omega
    · exact ih C h1 hl

theorem countSub_append_tails (p a b : List Char) (hp : p ≠ [])
    (hA : ∀ t ∈ a.tails, t.length < p.length → p.head? ≠ t.head?) :
    countSub p (a ++ b) = countSub p a + countSub p b :=
  countSub_append_safe p hp a b (fun t ht htl => hA t ((List.mem_tails _ _).mpr ht) htl)

theorem countSub_append_tailsafe (p x C b : List Char) (hp : p ≠ [])
    (hlen : p.length ≤ C.length + 1)
    (hC : ∀ t ∈ C.tails, t.length < p.length → p.head? ≠ t.head?) :
    countSub p ((x ++ C) ++ b) = countSub p (x ++ C) + countSub p b := by
  apply countSub_append_safe p hp
  intro t ht htl
  have h1 : t.length ≤ C.length := by omega
  exact hC t ((List.mem_tails _ _).mpr (suffix_shrink t x C ht h1)) htl

theorem no_lt_refDigest_buf (sha512 : List Nat → List Nat) (d : List Nat) (uri : List Char) :
    '<' ∉ refDigestB64 sha512 (.buf d) uri := by
  unfold refDigestB64
  split
  · exact base64_no_lt _
  · simp [refStr]

/-- Each rendered reference fragment contributes exactly one occurrence
of `<Reference ` to any string it is prepended to. -/
theorem countSub_createReference (sha512 : List Nat → List Nat) (dat : RefData)
    (uri : List Char) (hu : '<' ∉ uri) (hd : '<' ∉ refDigestB64 sha512 dat uri) :
    ∀ b, countSub refPat (createReference sha512 dat uri ++ b) = 1 + countSub refPat b := by
  intro b
  have hlt : '<' ∉ wrap76 (refDigestB64 sha512 dat uri) := by
    intro hm
    rcases mem_wrap76 _ _ hm with hm' | hm'
    · exact hd hm'
    · exact absurd hm' (by decide)
  have n1 : countSub refPat (lstr "<Reference URI=\"") = 1 := by decide
  have n2 : countSub refPat
      (lstr "<Transforms>\n<Transform Algorithm=\"http://www.w3.org/2006/12/xml-c14n11\"></Transform>\n</Transforms>\n") = 0 := by
    decide
  have n3 : countSub refPat
      (lstr "<DigestMethod Algorithm=\"http://www.w3.org/2001/04/xmlenc#sha512\"></DigestMethod>\n<DigestValue>") = 0 := by
    decide
  have n4 : countSub refPat (lstr "</DigestValue>\n</Reference>\n") = 0 := by decide
  simp only [createReference, List.append_assoc]
  rw [countSub_append_tails refPat (lstr "<Reference URI=\"") _ (by decide) (by decide)]
  rw [countSub_append_of_head refPat '<' (by decide) uri _ hu]
  rw [countSub_append_of_head refPat '<' (by decide) (lstr "\">\n") _ (by decide)]
  have hrest : countSub refPat
      ((lstr "<DigestMethod Algorithm=\"http://www.w3.org/2001/04/xmlenc#sha512\"></DigestMethod>\n<DigestValue>") ++
        (wrap76 (refDigestB64 sha512 dat uri) ++ (lstr "</DigestValue>\n</Reference>\n" ++ b))) =
      countSub refPat b := by
    rw [countSub_append_tails refPat _ _ (by decide) (by decide)]
    rw [countSub_append_of_head refPat '<' (by decide) _ _ hlt]
    rw [countSub_append_tails refPat (lstr "</DigestValue>\n</Reference>\n") _ (by decide) (by decide)]
    omega
  split
  · rw [countSub_append_tails refPat
      (lstr "<Transforms>\n<Transform Algorithm=\"http://www.w3.org/2006/12/xml-c14n11\"></Transform>\n</Transforms>\n")
      _ (by decide) (by decide)]
    rw [hrest]
    omega
  · simp only [List.nil_append]
    rw [hrest]
    omega

theorem foldl_append_eq (g : FileEntry → List Char) :
    ∀ (files : List FileEntry) (init : List Char),
      files.foldl (fun acc f => acc ++ g f) init = init ++ (files.map g).flatten := by
  intro files
  induction files with
  | nil => intro init; simp
  | cons f fs ih => intro init; simp [ih, List.append_assoc]

/-- `references` as a concatenation in file order. -/
theorem mkReferences_eq (sha512 : List Nat → List Nat) (id : List Char)
    (files : List FileEntry) :
    mkReferences sha512 id files =
      (files.map (fun f => createReference sha512 (.buf f.data) f.uri)).flatten ++
        createReference sha512 (.str (propData id)) (lstr "#prop") := by
  unfold mkReferences
  rw [foldl_append_eq]
  simp

theorem no_lt_propData (id : List Char) : '<' ∉ propData id := by
  unfold propData
  split <;> decide

theorem refDigest_prop (sha512 : List Nat → List Nat) (p : List Char) :
    refDigestB64 sha512 (.str p) (lstr "#prop") = p := by
  unfold refDigestB64
  rw [if_neg (fun hh => hh rfl)]
  rfl

theorem countSub_mkReferences (sha512 : List Nat → List Nat) (id : List Char) :
    ∀ (files : List FileEntry), (∀ f ∈ files, '<' ∉ f.uri) →
      countSub refPat (mkReferences sha512 id files) = files.length + 1 := by
  intro files
  induction files with
  | nil =>
    intro _
    rw [mkReferences_eq]
    simp only [List.map_nil, List.flatten_nil, List.nil_append, List.length_nil]
    have := countSub_createReference sha512 (.str (propData id)) (lstr "#prop")
      (by decide) (by rw [refDigest_prop]; exact no_lt_propData id) []
    rw [List.append_nil] at this
    rw [this]
    have h0 : countSub refPat ([] : List Char) = 0 := rfl
    rw [h0]
  | cons f fs ih =>
    intro h
    rw [mkReferences_eq]
    simp only [List.map_cons, List.flatten_cons, List.length_cons, List.append_assoc]
    rw [countSub_createReference sha512 (.buf f.data) f.uri
      (h f (List.mem_cons_self f fs)) (no_lt_refDigest_buf sha512 f.data f.uri)]
    have ihh := ih (fun x hx => h x (List.mem_cons_of_mem _ hx))
    rw [mkReferences_eq] at ihh
    rw [ihh]
    omega

/-- C2: after reference building, the references string is the
concatenation of one fragment per file in input-list order followed by
the `#prop` fragment; it contains exactly `|files| + 1` occurrences of
`<Reference ` (when no uri contains `<`, as holds for URL-encoded
uris); the `#prop` fragment carries the C14N 1.1 `<Transform>` child
and its `<DigestValue>` is the role's hard-coded constant (author
constant exactly for `AuthorSignature`, distributor constant for every
other id), line-wrapped at 76 columns. -/
theorem C2_reference_count_order (sha512 : List Nat → List Nat) (id : List Char)
    (files : List FileEntry) (h : ∀ f ∈ files, '<' ∉ f.uri) :
    mkReferences sha512 id files =
      (files.map (fun f => createReference sha512 (.buf f.data) f.uri)).flatten ++
        createReference sha512 (.str (propData id)) (lstr "#prop")
    ∧ countSub refPat (mkReferences sha512 id files) = files.length + 1
    ∧ createReference sha512 (.str (propData id)) (lstr "#prop") =
        lstr "<Reference URI=\"" ++ lstr "#prop" ++ lstr "\">\n" ++
        lstr "<Transforms>\n<Transform Algorithm=\"http://www.w3.org/2006/12/xml-c14n11\"></Transform>\n</Transforms>\n" ++
        lstr "<DigestMethod Algorithm=\"http://www.w3.org/2001/04/xmlenc#sha512\"></DigestMethod>\n<DigestValue>" ++
        wrap76 (propData id) ++ lstr "</DigestValue>\n</Reference>\n"
    ∧ removeNewlines (wrap76 (propData id)) = propData id
    ∧ (id = lstr "AuthorSignature" → propData id = authorPropDigest)
    ∧ (id ≠ lstr "AuthorSignature" → propData id = distributorPropDigest) := by
  refine ⟨mkReferences_eq sha512 id files, countSub_mkReferences sha512 id files h, ?_, ?_, ?_, ?_⟩
  · simp only [createReference]
    rw [refDigest_prop]
    simp [List.append_assoc]
  · unfold propData
    split <;> decide
  · intro hid
    simp [propData, hid]
  · intro hid
    simp [propData, hid]

theorem C2_reference_count_order_witness :
    (∀ f ∈ [(⟨lstr "config.xml", [60, 120, 47, 62]⟩ : FileEntry)], '<' ∉ f.uri) ∧
    countSub refPat (mkReferences (fun _ => List.replicate 64 0) (lstr "DistributorSignature")
      [(⟨lstr "config.xml", [60, 120, 47, 62]⟩ : FileEntry)]) =
      ([(⟨lstr "config.xml", [60, 120, 47, 62]⟩ : FileEntry)]).length + 1 :=
  ⟨by decide, (C2_reference_count_order (fun _ => List.replicate 64 0)
    (lstr "DistributorSignature") [⟨lstr "config.xml", [60, 120, 47, 62]⟩] (by decide)).2.1⟩

/-! The attribute-axis ordering (claim C3). -/

theorem lexCmp_append_left (x : List Char) :
    ∀ (a b : List Char), lexCmp (x ++ a) (x ++ b) = lexCmp a b := by
  induction x with
  | nil => intro a b; rfl
  | cons c x ih =>
    intro a b
    simp [lexCmp, lt_irrefl, ih]

/-- C3: `attrCompare` puts every attribute without a (truthy) namespace
URI before every attribute with one; two namespaced attributes compare
lexicographically by `namespaceURI ++ localName`; two namespace-less
attributes compare lexicographically by `localName` alone; attributes
whose name begins with `xmlns` are dropped by `renderAttrs` before
sorting; and the concrete element
`<e xmlns="u" b="2" a="1" xml:lang="en"/>` canonicalizes to
`<e xmlns="u" a="1" b="2" xml:lang="en"></e>`. -/
theorem C3_attr_ordering :
    (∀ a b : Attr, optTruthy a.namespaceURI = false → optTruthy b.namespaceURI = true →
      attrCompare a b = Ordering.lt ∧ attrCompare b a = Ordering.gt)
    ∧ (∀ a b : Attr, optTruthy a.namespaceURI = true → optTruthy b.namespaceURI = true →
      attrCompare a b =
        lexCmp (jsStr a.namespaceURI ++ a.localName) (jsStr b.namespaceURI ++ b.localName))
    ∧ (∀ a b : Attr, a.namespaceURI = none → b.namespaceURI = none →
      attrCompare a b = lexCmp a.localName b.localName)
    ∧ (∀ (attrs : List Attr) (d : Option (List Char)),
      renderAttrs attrs d =
        renderAttrs (attrs.filter (fun a => !((lstr "xmlns").isPrefixOf a.name))) d)
    ∧ process exampleElem [] [] [] = lstr "<e xmlns=\"u\" a=\"1\" b=\"2\" xml:lang=\"en\"></e>" := by
  refine ⟨?_, ?_, ?_, ?_, by decide⟩
  · intro a b ha hb
    unfold attrCompare
    rw [ha, hb]
    exact ⟨rfl, rfl⟩
  · intro a b ha hb
    unfold attrCompare
    rw [ha, hb]
    rfl
  · intro a b ha hb
    unfold attrCompare
    rw [ha, hb]
    simp only [optTruthy, Bool.not_false, Bool.and_false, Bool.false_and, Bool.and_true,
      Bool.true_and, Bool.not_true, if_neg, jsStr]
    exact lexCmp_append_left (lstr "null") a.localName b.localName
  · intro attrs d
    unfold renderAttrs
    rw [List.filter_filter]
    simp

theorem C3_attr_ordering_witness :
    optTruthy (⟨lstr "a", none, lstr "a", none, lstr "1"⟩ : Attr).namespaceURI = false ∧
    optTruthy (⟨lstr "xml:lang", some (lstr "xml"), lstr "lang",
      some (lstr "http://www.w3.org/XML/1998/namespace"), lstr "en"⟩ : Attr).namespaceURI = true ∧
    attrCompare ⟨lstr "a", none, lstr "a", none, lstr "1"⟩
      ⟨lstr "xml:lang", some (lstr "xml"), lstr "lang",
        some (lstr "http://www.w3.org/XML/1998/namespace"), lstr "en"⟩ = Ordering.lt :=
  ⟨by decide, by decide, (C3_attr_ordering.1 _ _ (by decide) (by decide)).1⟩

/-- C4: during canonicalization every recursive descent receives the
same copied prefix scope.  First, the child loop hands every child the
identical scope `σ` (the copy taken at the parent); in particular the
output fragment of each child is a function of that child and `σ`
alone, so prefix declarations recorded inside one child subtree never
change a sibling's emission.  Second, the prefix set an element leaves
behind (the set in effect for the parent's remaining output) does not
depend on its children at all. -/
theorem C4_scope_copies :
    (∀ (σ : List (List Char)) (δ : Option (List Char))
      (dnfp : List (List Char × List Char)) (incl : List (List Char)) (cs : List XNode),
      processChildren cs σ δ dnfp incl =
        (cs.map (fun c => (processInner c σ δ dnfp incl).1)).flatten)
    ∧ (∀ (σ : List (List Char)) (δ : Option (List Char))
      (dnfp : List (List Char × List Char)) (incl : List (List Char))
      (tagName : List Char) (pfx? nsURI? : Option (List Char)) (attrs : List Attr)
      (cs cs' : List XNode),
      (processInner (.elem tagName pfx? nsURI? attrs cs) σ δ dnfp incl).2 =
        (processInner (.elem tagName pfx? nsURI? attrs cs') σ δ dnfp incl).2) := by
  constructor
  · intro σ δ dnfp incl cs
    induction cs with
    | nil => rfl
    | cons c cs ih => simp [processChildren, ih]
  · intro σ δ dnfp incl tagName pfx? nsURI? attrs cs cs'
    simp [processInner]

/-! ASCII preservation through the canonicalizer (claim C5). -/

theorem asciiStrB_append (a b : List Char) :
    asciiStrB (a ++ b) = (asciiStrB a && asciiStrB b) :=
  List.all_append

theorem asciiB_of_mem {l : List Char} {c : Char} (h : asciiStrB l = true) (hc : c ∈ l) :
    asciiB c = true :=
  List.all_eq_true.mp h c hc

theorem asciiStrB_of_forall {l : List Char} (h : ∀ c ∈ l, asciiB c = true) :
    asciiStrB l = true :=
  List.all_eq_true.mpr h

theorem asciiStrB_flatten {ls : List (List Char)} (h : ∀ l ∈ ls, asciiStrB l = true) :
    asciiStrB ls.flatten = true := by
  induction ls with
  | nil => rfl
  | cons l ls ih =>
    rw [List.flatten_cons, asciiStrB_append, Bool.and_eq_true]
    exact ⟨h l (List.mem_cons_self l ls), ih (fun x hx => h x (List.mem_cons_of_mem _ hx))⟩

theorem asciiStrB_flatMap {f : Char → List Char} {l : List Char}
    (h : ∀ c ∈ l, asciiStrB (f c) = true) : asciiStrB (l.flatMap f) = true := by
  rw [show l.flatMap f = (l.map f).flatten from rfl]
  exact asciiStrB_flatten (by
    intro x hx
    obtain ⟨c, hc, rfl⟩ := List.mem_map.mp hx
    exact h c hc)

theorem ascii_escTextChar (c : Char) (h : asciiB c = true) :
    asciiStrB (escTextChar c) = true := by
  unfold escTextChar
  repeat' split
  all_goals first | decide | simpa [asciiStrB] using h

theorem ascii_escAttrChar (c : Char) (h : asciiB c = true) :
    asciiStrB (escAttrChar c) = true := by
  unfold escAttrChar
  repeat' split
  all_goals first | decide | simpa [asciiStrB] using h

theorem mem_normLineEndings (c : Char) :
    ∀ (d : List Char), c ∈ normLineEndings d → c ∈ d ∨ c = '\n'
  | [], h => by simp [normLineEndings] at h
  | [a], h => by
      unfold normLineEndings at h
      split at h
      · exact Or.inr (by simpa using h)
      · exact Or.inl h
  | a :: b :: rest, h => by
      unfold normLineEndings at h
      split at h
      · split at h
        · rcases List.mem_cons.mp h with h' | h'
          · exact Or.inr h'
          · rcases mem_normLineEndings c rest h' with h'' | h''
            · exact Or.inl (by simp [h''])
            · exact Or.inr h''
        · rcases List.mem_cons.mp h with h' | h'
          · exact Or.inr h'
          · rcases mem_normLineEndings c (b :: rest) h' with h'' | h''
            · exact Or.inl (List.mem_cons_of_mem _ h'')
            · exact Or.inr h''
      · rcases List.mem_cons.mp h with h' | h'
        · exact Or.inl (by simp [h'])
        · rcases mem_normLineEndings c (b :: rest) h' with h'' | h''
          · exact Or.inl (List.mem_cons_of_mem _ h'')
          · exact Or.inr h''

theorem mem_collapseWsGo (c : Char) :
    ∀ (l : List Char) (flag : Bool), c ∈ collapseWsGo l flag → c ∈ l ∨ c = ' ' := by
  intro l
  induction l with
  | nil => intro flag h; simp [collapseWsGo] at h
  | cons a rest ih =>
    intro flag h
    unfold collapseWsGo at h
    split at h
    · split at h
      · rcases ih true h with h' | h'
        · exact Or.inl (List.mem_cons_of_mem _ h')
        · exact Or.inr h'
      · rcases List.mem_cons.mp h with h' | h'
        · exact Or.inr h'
        · rcases ih true h' with h'' | h''
          · exact Or.inl (List.mem_cons_of_mem _ h'')
          · exact Or.inr h''
    · rcases List.mem_cons.mp h with h' | h'
      · exact Or.inl (by simp [h'])
      · rcases ih false h' with h'' | h''
        · exact Or.inl (List.mem_cons_of_mem _ h'')
        · exact Or.inr h''

theorem ascii_encodeText (d : List Char) (h : asciiStrB d = true) :
    asciiStrB (encodeSpecialCharactersInText d) = true := by
  unfold encodeSpecialCharactersInText
  apply asciiStrB_flatMap
  intro c hc
  apply ascii_escTextChar
  rcases mem_normLineEndings c d hc with h' | h'
  · exact asciiB_of_mem h h'
  · rw [h']; decide

theorem ascii_encodeAttr (v : List Char) (h : asciiStrB v = true) :
    asciiStrB (encodeSpecialCharactersInAttribute v) = true := by
  unfold encodeSpecialCharactersInAttribute collapseWs
  apply asciiStrB_flatMap
  intro c hc
  apply ascii_escAttrChar
  rcases mem_collapseWsGo c v false hc with h' | h'
  · exact asciiB_of_mem h h'
  · rw [h']; decide

theorem ascii_renderOpt (o : Option (List Char)) (h : asciiOptB o = true) :
    asciiStrB (renderOpt o) = true := by
  cases o with
  | none => rfl
  | some s => exact h

theorem ascii_getD (o : Option (List Char)) (h : asciiOptB o = true) :
    asciiStrB (o.getD []) = true := by
  cases o with
  | none => rfl
  | some s => exact h

theorem ascii_jsOrOpt (a b : Option (List Char)) (ha : asciiOptB a = true)
    (hb : asciiOptB b = true) : asciiOptB (jsOrOpt a b) = true := by
  unfold jsOrOpt
  split <;> assumption

theorem ascii_lookupDnfp (m : List (List Char × List Char)) (k : List Char)
    (hm : asciiPairsB m = true) : asciiOptB (lookupDnfp m k) = true := by
  unfold lookupDnfp
  cases hfind : m.find? (fun p => p.1 == k) with
  | none => rfl
  | some p =>
    have hmem := List.mem_of_find?_eq_some hfind
    have := List.all_eq_true.mp hm p hmem
    simp only [Bool.and_eq_true] at this
    simpa [asciiOptB] using this.2

theorem ascii_nsStage1_decls (pfx? nsURI? : Option (List Char)) (scope0 : List (List Char))
    (defaultNs : Option (List Char)) (dnfp : List (List Char × List Char))
    (hp : asciiOptB pfx? = true) (hn : asciiOptB nsURI? = true)
    (hd : asciiPairsB dnfp = true) :
    ∀ d ∈ (nsStage1 pfx? nsURI? scope0 defaultNs dnfp).1,
      asciiStrB d.pfx = true ∧ asciiStrB d.uri = true := by
  intro d hd'
  simp only [nsStage1] at hd'
  split at hd'
  · split at hd'
    · simp at hd'
    · simp only [List.mem_singleton] at hd'
      subst hd'
      refine ⟨ascii_getD _ hp, ascii_renderOpt _ ?_⟩
      exact ascii_jsOrOpt _ _ hn (ascii_lookupDnfp dnfp _ hd)
  · split at hd'
    · simp at hd'
    · simp at hd'

theorem ascii_nsStage1_rendered (pfx? nsURI? : Option (List Char)) (scope0 : List (List Char))
    (defaultNs : Option (List Char)) (dnfp : List (List Char × List Char))
    (hn : asciiOptB nsURI? = true) :
    asciiStrB (nsStage1 pfx? nsURI? scope0 defaultNs dnfp).2.2.1 = true := by
  simp only [nsStage1]
  split
  · split <;> rfl
  · split
    · show asciiStrB (lstr " xmlns=\"" ++ renderOpt nsURI? ++ lstr "\"") = true
      rw [asciiStrB_append, asciiStrB_append]
      simp only [Bool.and_eq_true]
      exact ⟨⟨by decide, ascii_renderOpt _ hn⟩, by decide⟩
    · rfl

theorem ascii_attr_fields {a : Attr} (h : asciiAttrB a = true) :
    asciiStrB a.name = true ∧ asciiOptB a.pfx = true ∧ asciiStrB a.localName = true ∧
      asciiOptB a.namespaceURI = true ∧ asciiStrB a.value = true := by
  unfold asciiAttrB at h
  simp only [Bool.and_eq_true] at h
  tauto

theorem nsAttrStep_fst_subset (incl : List (List Char)) (acc : List NsDecl × List (List Char))
    (a : Attr) :
    ∀ d ∈ (nsAttrStep incl acc a).1,
      d ∈ acc.1 ∨ d = ⟨a.localName, a.value⟩ ∨ d = ⟨a.pfx.getD [], renderOpt a.namespaceURI⟩ := by
  intro d hd
  simp only [nsAttrStep] at hd
  split at hd <;> split at hd <;>
    (try simp only [List.mem_append, List.mem_singleton] at hd) <;> tauto

theorem ascii_nsAttrStep_fold (incl : List (List Char)) :
    ∀ (attrs : List Attr), attrs.all asciiAttrB = true →
    ∀ (acc : List NsDecl × List (List Char)),
      (∀ d ∈ acc.1, asciiStrB d.pfx = true ∧ asciiStrB d.uri = true) →
      ∀ d ∈ (attrs.foldl (nsAttrStep incl) acc).1,
        asciiStrB d.pfx = true ∧ asciiStrB d.uri = true := by
  intro attrs
  induction attrs with
  | nil => intro _ acc hacc; simpa using hacc
  | cons a attrs ih =>
    intro ha acc hacc
    simp only [List.all_cons, Bool.and_eq_true] at ha
    rw [List.foldl_cons]
    apply ih ha.2
    obtain ⟨_, hpfx, hlocal, hns, hval⟩ := ascii_attr_fields ha.1
    intro d hd
    rcases nsAttrStep_fst_subset incl acc a d hd with hd' | hd' | hd'
    · exact hacc d hd'
    · subst hd'; exact ⟨hlocal, hval⟩
    · subst hd'; exact ⟨ascii_getD _ hpfx, ascii_renderOpt _ hns⟩

theorem ascii_renderNs (pfx? nsURI? : Option (List Char)) (attrs : List Attr)
    (scope0 : List (List Char)) (defaultNs : Option (List Char))
    (dnfp : List (List Char × List Char)) (incl : List (List Char))
    (hp : asciiOptB pfx? = true) (hn : asciiOptB nsURI? = true)
    (ha : attrs.all asciiAttrB = true) (hd : asciiPairsB dnfp = true) :
    asciiStrB (renderNs pfx? nsURI? attrs scope0 defaultNs dnfp incl).rendered = true := by
  unfold renderNs
  rw [asciiStrB_append]
  simp only [Bool.and_eq_true]
  constructor
  · exact ascii_nsStage1_rendered pfx? nsURI? scope0 defaultNs dnfp hn
  · apply asciiStrB_flatten
    intro l hl
    obtain ⟨d, hdmem, rfl⟩ := List.mem_map.mp hl
    have hdmem2 := (List.perm_insertionSort nsLe _).mem_iff.mp hdmem
    have hdascii : asciiStrB d.pfx = true ∧ asciiStrB d.uri = true := by
      refine ascii_nsAttrStep_fold incl attrs ha _ ?_ d hdmem2
      exact ascii_nsStage1_decls pfx? nsURI? scope0 defaultNs dnfp hp hn hd
    simp only [asciiStrB_append, Bool.and_eq_true]
    exact ⟨⟨⟨⟨by decide, hdascii.1⟩, by decide⟩, hdascii.2⟩, by decide⟩

theorem ascii_renderAttrs (attrs : List Attr) (d : Option (List Char))
    (ha : attrs.all asciiAttrB = true) :
    asciiStrB (renderAttrs attrs d) = true := by
  unfold renderAttrs
  apply asciiStrB_flatten
  intro l hl
  obtain ⟨a, hamem, rfl⟩ := List.mem_map.mp hl
  have hamem2 : a ∈ attrs := by
    have h1 := (List.perm_insertionSort attrLe _).mem_iff.mp hamem
    exact List.mem_of_mem_filter h1
  obtain ⟨hname, _, _, _, hval⟩ := ascii_attr_fields (List.all_eq_true.mp ha a hamem2)
  simp only [asciiStrB_append, Bool.and_eq_true]
  exact ⟨⟨⟨⟨by decide, hname⟩, by decide⟩, ascii_encodeAttr _ hval⟩, by decide⟩

mutual

theorem ascii_processInner (dnfp : List (List Char × List Char)) (incl : List (List Char))
    (hd : asciiPairsB dnfp = true) :
    ∀ (n : XNode) (σ : List (List Char)) (δ : Option (List Char)),
      asciiNodeB n = true → asciiStrB (processInner n σ δ dnfp incl).1 = true
  | .text d, _, _, h => ascii_encodeText d h
  | .elem tagName pfx? nsURI? attrs cs, σ, δ, h => by
      have hcomp : asciiStrB tagName = true ∧ asciiOptB pfx? = true ∧ asciiOptB nsURI? = true ∧
          attrs.all asciiAttrB = true ∧ asciiNodesB cs = true := by
        have h' := h
        unfold asciiNodeB at h'
        simp only [Bool.and_eq_true] at h'
        tauto
      obtain ⟨ht, hp, hn, hattrs, hcs⟩ := hcomp
      show asciiStrB (lstr "<" ++ tagName ++ _ ++ _ ++ lstr ">" ++ _ ++ lstr "</" ++ tagName ++
        lstr ">") = true
      simp only [asciiStrB_append, Bool.and_eq_true]
      refine ⟨⟨⟨⟨⟨⟨⟨⟨by decide, ht⟩, ?_⟩, ?_⟩, by decide⟩, ?_⟩, by decide⟩, ht⟩, by decide⟩
      · exact ascii_renderNs pfx? nsURI? attrs σ δ dnfp incl hp hn hattrs hd
      · exact ascii_renderAttrs attrs _ hattrs
      · exact ascii_processChildren dnfp incl hd cs _ _ hcs

theorem ascii_processChildren (dnfp : List (List Char × List Char)) (incl : List (List Char))
    (hd : asciiPairsB dnfp = true) :
    ∀ (cs : List XNode) (σ : List (List Char)) (δ : Option (List Char)),
      asciiNodesB cs = true → asciiStrB (processChildren cs σ δ dnfp incl) = true
  | [], _, _, _ => rfl
  | c :: cs, σ, δ, h => by
      have hcomp : asciiNodeB c = true ∧ asciiNodesB cs = true := by
        have h' := h
        unfold asciiNodesB at h'
        simpa [Bool.and_eq_true] using h'
      show asciiStrB ((processInner c σ δ dnfp incl).1 ++ processChildren cs σ δ dnfp incl) = true
      rw [asciiStrB_append, Bool.and_eq_true]
      exact ⟨ascii_processInner dnfp incl hd c σ δ hcomp.1,
        ascii_processChildren dnfp incl hd cs σ δ hcomp.2⟩

end

/-- C5's counterexample: the element `<e>é</e>` (a text node holding
the single non-ASCII character U+00E9) canonicalizes to output that
contains a character outside 7-bit ASCII — the canonicalizer does not
escape non-ASCII characters. -/
theorem C5_counterexample :
    ∃ c ∈ process (XNode.elem (lstr "e") none none [] [XNode.text [Char.ofNat 233]]) [] [] [],
      ¬ c.toNat < 128 := by
  decide

/-- C5 (amended): the canonicalizer's output is pure 7-bit ASCII
whenever every name, attribute value, namespace URI and text datum in
the input tree — and every entry of the `defaultNsForPrefix` map — is
7-bit ASCII.  The escaping functions map their special characters to
ASCII escape sequences and leave all other characters (including
non-ASCII ones) unchanged, so ASCII-ness of the output holds exactly
when the input is ASCII, not unconditionally. -/
theorem C5_ascii_preserved (n : XNode) (dnfp : List (List Char × List Char))
    (incl : List (List Char)) (defaultNs : List Char)
    (h1 : asciiNodeB n = true) (h2 : asciiPairsB dnfp = true) :
    ∀ c ∈ process n dnfp incl defaultNs, c.toNat < 128 := by
  intro c hc
  have := asciiB_of_mem (ascii_processInner dnfp incl h2 n [] (some defaultNs) h1) hc
  exact of_decide_eq_true this

theorem C5_ascii_preserved_witness :
    asciiNodeB exampleElem = true ∧ asciiPairsB [] = true ∧
    ∀ c ∈ process exampleElem [] [] [], c.toNat < 128 :=
  ⟨by decide, by decide, C5_ascii_preserved exampleElem [] [] [] (by decide) (by decide)⟩

/-! Frame lemmas about the signing pipeline (claims C6-C10). -/

theorem addKeyInfo_frame (s : SigState) (key : Pkcs12) :
    (addKeyInfo s key).id = s.id ∧ (addKeyInfo s key).files = s.files ∧
      (addKeyInfo s key).references = s.references ∧
      (addKeyInfo s key).signedInfo = s.signedInfo :=
  ⟨rfl, rfl, rfl, rfl⟩

theorem generateSignature_frame (ext : Ext) (s : SigState) :
    (generateSignature ext s).2.id = s.id ∧ (generateSignature ext s).2.files = s.files ∧
      (generateSignature ext s).2.keyInfo = s.keyInfo ∧
      (generateSignature ext s).2.privateKey = s.privateKey := by
  simp only [generateSignature]
  split
  · exact ⟨rfl, rfl, rfl, rfl⟩
  · split <;> exact ⟨rfl, rfl, rfl, rfl⟩

theorem keyInfoFold_snd_of_no_key :
    ∀ (bags : List SafeBag), (∀ b ∈ bags, ∀ pem, b ≠ SafeBag.keyBag pem) →
      ∀ acc : List Char × List Char, (bags.foldl keyInfoStep acc).2 = acc.2 := by
  intro bags
  induction bags with
  | nil => intro _ acc; rfl
  | cons b bags ih =>
    intro h acc
    rw [List.foldl_cons]
    rw [ih (fun x hx => h x (List.mem_cons_of_mem _ hx))]
    cases b with
    | certBag pem => rfl
    | keyBag pem => exact absurd rfl (h _ (List.mem_cons_self _ _) pem)
    | otherBag => rfl

theorem keyInfoFold_fst_of_no_cert :
    ∀ (bags : List SafeBag), (∀ b ∈ bags, ∀ pem, b ≠ SafeBag.certBag pem) →
      ∀ acc : List Char × List Char, (bags.foldl keyInfoStep acc).1 = acc.1 := by
  intro bags
  induction bags with
  | nil => intro _ acc; rfl
  | cons b bags ih =>
    intro h acc
    rw [List.foldl_cons]
    rw [ih (fun x hx => h x (List.mem_cons_of_mem _ hx))]
    cases b with
    | certBag pem => exact absurd rfl (h _ (List.mem_cons_self _ _) pem)
    | keyBag pem => rfl
    | otherBag => rfl

theorem no_keyBag_of_hasKeyBag_false {key : Pkcs12} (h : hasKeyBag key = false) :
    ∀ b ∈ key.safeContents.flatten, ∀ pem, b ≠ SafeBag.keyBag pem := by
  intro b hb pem hbe
  subst hbe
  unfold hasKeyBag at h
  rw [List.any_eq_false] at h
  exact h _ hb rfl

theorem no_certBag_of_hasCertBag_false {key : Pkcs12} (h : hasCertBag key = false) :
    ∀ b ∈ key.safeContents.flatten, ∀ pem, b ≠ SafeBag.certBag pem := by
  intro b hb pem hbe
  subst hbe
  unfold hasCertBag at h
  rw [List.any_eq_false] at h
  exact h _ hb rfl

theorem addKeyInfo_privateKey_of_no_key (s : SigState) (key : Pkcs12)
    (h : hasKeyBag key = false) : (addKeyInfo s key).privateKey = s.privateKey := by
  unfold addKeyInfo
  exact keyInfoFold_snd_of_no_key _ (no_keyBag_of_hasKeyBag_false h) _

theorem addKeyInfo_keyInfo_of_no_cert (s : SigState) (key : Pkcs12)
    (h : hasCertBag key = false) :
    (addKeyInfo s key).keyInfo = lstr "<KeyInfo>\n<X509Data>\n</X509Data>\n</KeyInfo>\n" := by
  unfold addKeyInfo
  show (key.safeContents.flatten.foldl keyInfoStep _).1 ++ _ = _
  rw [keyInfoFold_fst_of_no_cert _ (no_certBag_of_hasCertBag_false h) _]
  show lstr "<KeyInfo>\n<X509Data>" ++ lstr "\n</X509Data>\n</KeyInfo>\n" =
    lstr "<KeyInfo>\n<X509Data>\n</X509Data>\n</KeyInfo>\n"
  decide

theorem generateSignature_error_of_empty_key (ext : Ext) (s : SigState)
    (hpk : s.privateKey = [])
    (hRsa : ∀ m, ∃ em, ext.rsaSign [] m = Except.error em) :
    ∃ e, (generateSignature ext s).1 = Except.error e := by
  simp only [generateSignature]
  split
  next e heq => exact ⟨e, rfl⟩
  next node heq =>
    obtain ⟨em, hem⟩ := hRsa (processInner node [] (some []) dsDnfp []).1
    refine ⟨em, ?_⟩
    rw [hpk, hem]

theorem signRun_files_of_error (ext : Ext) (s : SigState) (key : Pkcs12) (e : SigError)
    (h : (signRun ext s key).1 = Except.error e) :
    (signRun ext s key).2.files = s.files := by
  simp only [signRun] at h ⊢
  split at h
  next e' s3 heq =>
    show s3.files = s.files
    have h2 := congrArg (fun p => p.2.files) heq
    simp only at h2
    rw [← h2, (generateSignature_frame ext _).2.1]
    rfl
  next u s3 heq =>
    simp at h

theorem signRun_ok (ext : Ext) (s : SigState) (key : Pkcs12) (out : List FileEntry)
    (h : (signRun ext s key).1 = Except.ok out) :
    ∃ d, out = ⟨sigFileName s.id, d⟩ :: s.files ∧ (signRun ext s key).2.files = out := by
  simp only [signRun] at h ⊢
  split at h
  next e' s3 heq => simp at h
  next u s3 heq =>
    simp only [Except.ok.injEq] at h
    have hid : s3.id = s.id := by
      have h2 := congrArg (fun p => p.2.id) heq
      simp only at h2
      rw [← h2, (generateSignature_frame ext _).1]
      rfl
    have hfiles : s3.files = s.files := by
      have h2 := congrArg (fun p => p.2.files) heq
      simp only at h2
      rw [← h2, (generateSignature_frame ext _).2.1]
      rfl
    refine ⟨utf8Bytes (generateSignatureXML s3), ?_, ?_⟩
    · rw [← h, hid, hfiles]
    · show ({ s3 with files := _ :: s3.files } : SigState).files = out
      rw [← h]

theorem signRun_error_of_no_key (ext : Ext) (s : SigState) (key : Pkcs12)
    (hk : hasKeyBag key = false) (hs : s.privateKey = [])
    (hRsa : ∀ m, ∃ em, ext.rsaSign [] m = Except.error em) :
    ∃ e, (signRun ext s key).1 = Except.error e := by
  simp only [signRun]
  obtain ⟨e, he⟩ := generateSignature_error_of_empty_key ext
    (addKeyInfo { s with references := s.references ++ mkReferences ext.sha512 s.id s.files } key)
    (by rw [addKeyInfo_privateKey_of_no_key _ _ hk]; exact hs)
    hRsa
  rcases hgen : generateSignature ext
      (addKeyInfo { s with references := s.references ++ mkReferences ext.sha512 s.id s.files }
        key) with ⟨res, s3⟩
  rw [hgen] at he
  cases res with
  | error e'' => exact ⟨e'', rfl⟩
  | ok u => simp at he

/-- C6: signing is deterministic — for a fixed role id, file list and
key material, two `sign` invocations on two freshly constructed
`Signature` instances produce identical results (in particular the
prepended signature entries, data included, are byte-identical). -/
theorem C6_deterministic (ext : Ext) (id : List Char) (files : List FileEntry) (key : Pkcs12)
    (s1 s2 : SigState) (h1 : s1 = mkSignature id files) (h2 : s2 = mkSignature id files) :
    signRun ext s1 key = signRun ext s2 key ∧
    (∀ out1 out2, (signRun ext s1 key).1 = Except.ok out1 →
      (signRun ext s2 key).1 = Except.ok out2 → out1 = out2) := by
  subst h1
  subst h2
  refine ⟨rfl, ?_⟩
  intro out1 out2 ha hb
  rw [ha] at hb
  injection hb

theorem C6_deterministic_witness :
    signRun extOK (mkSignature (lstr "AuthorSignature") []) keyOK =
      signRun extOK (mkSignature (lstr "AuthorSignature") []) keyOK :=
  (C6_deterministic extOK (lstr "AuthorSignature") [] keyOK _ _ rfl rfl).1

/-- C7: if `sign` fails at any step, the file list held by the
instance — the very list handed in by the caller — is unchanged: the
signature entry is prepended only in the success branch, after
reference building, key extraction and RSA signing have all
succeeded. -/
theorem C7_no_mutation_on_error (ext : Ext) (s : SigState) (key : Pkcs12) (e : SigError)
    (h : (signRun ext s key).1 = Except.error e) :
    (signRun ext s key).2.files = s.files :=
  signRun_files_of_error ext s key e h

theorem C7_no_mutation_on_error_witness :
    (signRun extParseFail (mkSignature (lstr "DistributorSignature") []) keyEmpty).1 =
      Except.error SigError.malformedXml ∧
    (signRun extParseFail (mkSignature (lstr "DistributorSignature") []) keyEmpty).2.files = [] :=
  ⟨rfl, C7_no_mutation_on_error extParseFail (mkSignature (lstr "DistributorSignature") [])
    keyEmpty SigError.malformedXml rfl⟩

/-- C8's counterexample: a bundle holding a shrouded key bag but no
certificate bag does not make `sign` fail — the run completes and
returns a signed file list (with an empty `<X509Data>`). -/
theorem C8_counterexample :
    hasCertBag keyNoCert = false ∧
    ∃ out, (signRun extOK (mkSignature (lstr "AuthorSignature") []) keyNoCert).1 =
      Except.ok out :=
  ⟨rfl, _, rfl⟩

/-- C8 (amended): if the bundle has no shrouded private-key bag, the
private key stays empty, so — given that the RSA primitive rejects an
empty key, as Node's does — `sign` fails and the file list is
unchanged; if the bundle has no certificate bag, `sign` does not fail
on that account: key-info building silently produces an empty
`<X509Data>` (and, with a key present, the run succeeds, per the
counterexample).  No dedicated InvalidKeyMaterial check exists in the
code. -/
theorem C8_key_material (ext : Ext) (key : Pkcs12) (id : List Char) (files : List FileEntry) :
    (hasKeyBag key = false → (∀ m, ∃ em, ext.rsaSign [] m = Except.error em) →
      (∃ e, (signRun ext (mkSignature id files) key).1 = Except.error e) ∧
      (signRun ext (mkSignature id files) key).2.files = files)
    ∧ (hasCertBag key = false →
      (addKeyInfo (mkSignature id files) key).keyInfo =
        lstr "<KeyInfo>\n<X509Data>\n</X509Data>\n</KeyInfo>\n") := by
  constructor
  · intro hk hRsa
    obtain ⟨e, he⟩ := signRun_error_of_no_key ext (mkSignature id files) key hk rfl hRsa
    refine ⟨⟨e, he⟩, ?_⟩
    exact (signRun_files_of_error ext _ key e he).trans rfl
  · intro hc
    exact addKeyInfo_keyInfo_of_no_cert _ key hc

theorem C8_key_material_witness :
    hasKeyBag keyEmpty = false ∧
    ((∃ e, (signRun extOK (mkSignature (lstr "AuthorSignature") []) keyEmpty).1 =
        Except.error e) ∧
      (signRun extOK (mkSignature (lstr "AuthorSignature") []) keyEmpty).2.files = []) ∧
    hasCertBag keyEmpty = false ∧
    (addKeyInfo (mkSignature (lstr "AuthorSignature") []) keyEmpty).keyInfo =
      lstr "<KeyInfo>\n<X509Data>\n</X509Data>\n</KeyInfo>\n" :=
  ⟨rfl,
   (C8_key_material extOK keyEmpty (lstr "AuthorSignature") []).1 rfl
     (fun _ => ⟨SigError.cryptoFailure, rfl⟩),
   rfl,
   (C8_key_material extOK keyEmpty (lstr "AuthorSignature") []).2 rfl⟩

theorem infix_peel {t : List Char} (x : List Char) {r : List Char} (h : t <:+: r) :
    t <:+: x ++ r :=
  h.trans (List.suffix_append x r).isInfix

theorem infix_two_append (a b r : List Char) : (a ++ b) <:+: a ++ (b ++ r) := by
  rw [← List.append_assoc]
  exact (List.prefix_append _ _).isInfix

/-- C9: only the exact id `AuthorSignature` selects the author `#prop`
digest, the `role-author` URI and the filename
`author-signature.xml`; every other id — `DistributorSignature`
included — selects the distributor digest, the `role-distributor` URI
and the filename `signature1.xml`. -/
theorem C9_id_dispatch (ext : Ext) (files : List FileEntry) (key : Pkcs12) (s : SigState)
    (id : List Char) :
    (id ≠ lstr "AuthorSignature" →
      propData id = distributorPropDigest ∧
      sigFileName id = lstr "signature1.xml" ∧
      roleWord id = lstr "distributor" ∧
      (s.id = id →
        lstr "http://www.w3.org/ns/widgets-digsig#role-" ++ lstr "distributor" <:+:
          generateSignatureXML s) ∧
      (∀ out, (signRun ext (mkSignature id files) key).1 = Except.ok out →
        ∃ d rest, out = ⟨lstr "signature1.xml", d⟩ :: rest))
    ∧ (id = lstr "AuthorSignature" →
      propData id = authorPropDigest ∧
      sigFileName id = lstr "author-signature.xml" ∧
      roleWord id = lstr "author" ∧
      (s.id = id →
        lstr "http://www.w3.org/ns/widgets-digsig#role-" ++ lstr "author" <:+:
          generateSignatureXML s)) := by
  constructor
  · intro hid
    refine ⟨by unfold propData; rw [if_neg hid],
      by unfold sigFileName; rw [if_neg hid],
      by unfold roleWord; rw [if_neg hid], ?_, ?_⟩
    · intro hsid
      have hr : roleWord s.id = lstr "distributor" := by
        rw [hsid]; unfold roleWord; rw [if_neg hid]
      simp only [generateSignatureXML, hr, List.append_assoc]
      exact infix_peel _ (infix_peel _ (infix_peel _ (infix_peel _ (infix_peel _ (infix_peel _
        (infix_peel _ (infix_peel _ (infix_peel _ (infix_peel _
          (infix_two_append _ _ _))))))))))
    · intro out hout
      obtain ⟨d, hd, _⟩ := signRun_ok ext (mkSignature id files) key out hout
      refine ⟨d, files, ?_⟩
      rw [hd]
      show (⟨sigFileName id, d⟩ : FileEntry) :: files = _
      rw [show sigFileName id = lstr "signature1.xml" from by unfold sigFileName; rw [if_neg hid]]
  · intro hid
    refine ⟨by unfold propData; rw [if_pos hid],
      by unfold sigFileName; rw [if_pos hid],
      by unfold roleWord; rw [if_pos hid], ?_⟩
    intro hsid
    have hr : roleWord s.id = lstr "author" := by
      rw [hsid]; unfold roleWord; rw [if_pos hid]
    simp only [generateSignatureXML, hr, List.append_assoc]
    exact infix_peel _ (infix_peel _ (infix_peel _ (infix_peel _ (infix_peel _ (infix_peel _
      (infix_peel _ (infix_peel _ (infix_peel _ (infix_peel _
        (infix_two_append _ _ _))))))))))

theorem C9_id_dispatch_witness :
    lstr "DistributorSignature" ≠ lstr "AuthorSignature" ∧
    propData (lstr "DistributorSignature") = distributorPropDigest ∧
    sigFileName (lstr "DistributorSignature") = lstr "signature1.xml" ∧
    ∃ out, (signRun extOK (mkSignature (lstr "DistributorSignature") []) keyOK).1 =
        Except.ok out ∧
      ∃ d rest, out = ⟨lstr "signature1.xml", d⟩ :: rest := by
  have hne : lstr "DistributorSignature" ≠ lstr "AuthorSignature" := by decide
  have hmain := (C9_id_dispatch extOK [] keyOK
    (mkSignature (lstr "DistributorSignature") []) (lstr "DistributorSignature")).1 hne
  exact ⟨hne, hmain.1, hmain.2.1, _, rfl, hmain.2.2.2.2 _ rfl⟩

/-- C10: on success, `sign` prepends the signature entry to the very
list stored at construction and returns it: the result is the
signature entry consed onto the caller's list, the instance's
`files` now is that same list, and every pre-existing entry follows
unchanged and in order (the tail of the result is the input list). -/
theorem C10_prepend_inplace (ext : Ext) (id : List Char) (files : List FileEntry)
    (key : Pkcs12) (out : List FileEntry)
    (h : (signRun ext (mkSignature id files) key).1 = Except.ok out) :
    ∃ d, out = ⟨sigFileName id, d⟩ :: files ∧
      (signRun ext (mkSignature id files) key).2.files = out ∧ out.tail = files := by
  obtain ⟨d, hout, hstate⟩ := signRun_ok ext (mkSignature id files) key out h
  exact ⟨d, hout, hstate, by rw [hout]; rfl⟩

theorem C10_prepend_inplace_witness :
    ∃ out, (signRun extOK (mkSignature (lstr "DistributorSignature") []) keyOK).1 =
        Except.ok out ∧
      ∃ d, out = ⟨sigFileName (lstr "DistributorSignature"), d⟩ :: [] ∧
        (signRun extOK (mkSignature (lstr "DistributorSignature") []) keyOK).2.files = out ∧
        out.tail = [] :=
  ⟨_, rfl, C10_prepend_inplace extOK (lstr "DistributorSignature") [] keyOK _ rfl⟩

end TizenSig
